import Mathlib

/-!
Verification of the `mmv` pattern engine (glob matching, destination path
templates, source path patterns).  Strings are modelled as `List Char`;
character positions stand in for the source's byte positions, which agree
on every index the code computes (all indices come from `find` results and
ASCII literal lengths).  Fallible operations (including panics of the
source, such as out-of-bounds indexing) are modelled with `Option`.
-/

namespace Mmv

/-- Model of `str::find(needle)`: index of the first (leftmost) occurrence
of `needle` as a contiguous run, `none` when absent.  An empty needle is
found at index 0. -/
def findFirst (needle : List Char) : List Char → Option Nat
  | [] => if needle.isPrefixOf ([] : List Char) then some 0 else none
  | c :: rest =>
    if needle.isPrefixOf (c :: rest) then some 0
    else (findFirst needle rest).map (· + 1)

/-- Model of `Pattern::strip_prefix_of`: remove `p` from the front of `s`,
`none` when `p` is not a prefix. -/
def strip_prefix_of (p s : List Char) : Option (List Char) :=
  if p.isPrefixOf s then some (s.drop p.length) else none

/-- Model of `Pattern::strip_suffix_of`: remove `p` from the end of `s`,
`none` when `p` is not a suffix. -/
def strip_suffix_of (p s : List Char) : Option (List Char) :=
  if p.isSuffixOf s then some (s.take (s.length - p.length)) else none

/-- Embedding of `GlobStarPattern` (src/lib/src/glob_star_pattern.rs):
a compiled pattern is the list of literal text blocks between wildcards. -/
structure GlobStarPattern where
  literal_blocks : List (List Char)
deriving DecidableEq, Repr

/-- Embedding of `impl From<&str> for GlobStarPattern`:
split the pattern string on every wildcard sigil (`str::split('*')`,
which keeps empty pieces and yields one piece even for the empty string,
is `List.splitOn`). -/
def GlobStarPattern.fromString (s : List Char) : GlobStarPattern :=
  ⟨s.splitOn '*'⟩

/-- Embedding of `GlobStarPattern::wildcards_number`:
`literal_blocks.len() - 1` (truncated subtraction models `usize`
subtraction; the block list of a compiled pattern is never empty). -/
def GlobStarPattern.wildcards_number (p : GlobStarPattern) : Nat :=
  p.literal_blocks.length - 1

/-- The middle-blocks loop of `GlobStarPattern::match_string`: for each
block, locate its leftmost occurrence, capture the text before it, and
continue past it.  Returns the captures and the remaining text. -/
def matchMiddles : List (List Char) → List Char → Option (List (List Char) × List Char)
  | [], s => some ([], s)
  | b :: bs, s =>
    (findFirst b s).bind fun i =>
      (matchMiddles bs (s.drop (i + b.length))).map fun cr =>
        (s.take i :: cr.1, cr.2)

/-- Embedding of `GlobStarPattern::match_string`.  The source indexes
`literal_blocks[0]` unconditionally; the (unreachable for compiled
patterns) empty-block-list case is modelled as `none`. -/
def GlobStarPattern.match_string (p : GlobStarPattern) (s : List Char) :
    Option (List (List Char)) :=
  match p.literal_blocks with
  | [] => none
  | b0 :: rest =>
    (strip_prefix_of b0 s).bind fun s1 =>
      match rest with
      | [] => if s1 = [] then some [] else none
      | _ :: _ =>
        (matchMiddles rest.dropLast s1).bind fun cr =>
          (strip_suffix_of (rest.getLastD []) cr.2).map fun clast =>
            cr.1 ++ [clast]

/-- Model of `Display for GlobStarPattern`: join the literal blocks with
the wildcard sigil. -/
def GlobStarPattern.display (p : GlobStarPattern) : List Char :=
  List.intercalate ['*'] p.literal_blocks

/-- Model of `str::rfind('/') .map_or(0, |i| i + 1)` as used by both
`DestinationPathTemplate::compile` and `SourcePathPattern::from_str`:
the length of the directory part, i.e. one past the last path separator,
or `0` when there is none. -/
def dirSplitLen : List Char → Nat
  | [] => 0
  | c :: rest =>
    if dirSplitLen rest = 0 then (if c = '/' then 1 else 0)
    else dirSplitLen rest + 1

/-- The inner `for marker_index in (1..=max_marker_index).rev()` loop of
`DestinationPathTemplate::compile`: the first index from `k` down to 1
whose decimal digit string is a prefix of `rest`. -/
def findMarkerIndex (rest : List Char) : Nat → Option Nat
  | 0 => none
  | k + 1 =>
    if (Nat.toDigits 10 (k + 1)).isPrefixOf rest then some (k + 1)
    else findMarkerIndex rest k

/-- Embedding of `DestinationPathTemplate`
(src/lib/src/destination_path_template.rs): a directory prefix kept
verbatim, marker indices, and the literal blocks between markers. -/
structure DestinationPathTemplate where
  directory : List Char
  markers : List Nat
  literal_blocks : List (List Char)
deriving DecidableEq, Repr

/-- The `'find_marker: while let Some(hashtag_position) = ...` loop of
`DestinationPathTemplate::compile`, translated step for step: `remainder`
is the current `filename_remainder`, `offset` the current
`current_offset_in_filename`.  The loop is not structurally decreasing in
the source (the failure branch sets the offset from the *relative* sigil
position, which can move backwards), so the model counts iterations with
`fuel` and returns `none` when the given bound does not suffice. -/
def compileLoop (max : Nat) : Nat → List Char → Nat →
    Option (List Nat × List (List Char))
  | 0, _, _ => none
  | fuel + 1, remainder, offset =>
    match findFirst ['#'] (remainder.drop offset) with
    | none => some ([], [remainder])
    | some p =>
      match findMarkerIndex (remainder.drop (offset + p + 1)) max with
      | some k =>
        (compileLoop max fuel
            (remainder.drop (offset + p + 1 + (Nat.toDigits 10 k).length)) 0).map
          fun mb => (k :: mb.1, remainder.take (offset + p) :: mb.2)
      | none => compileLoop max fuel remainder (p + 1)

/-- Embedding of `DestinationPathTemplate::compile`: split the template at
the last path separator, keep the directory verbatim, and scan only the
filename remainder for markers.  `fuel` bounds the number of loop
iterations (see `compileLoop`). -/
def DestinationPathTemplate.compile (fuel : Nat) (path_pattern : List Char)
    (max_marker_index : Nat) : Option DestinationPathTemplate :=
  match compileLoop max_marker_index fuel
      (path_pattern.drop (dirSplitLen path_pattern)) 0 with
  | none => none
  | some (ms, bs) =>
    some ⟨path_pattern.take (dirSplitLen path_pattern), ms, bs⟩

/-- Model of `PathBuf::join` (Unix) restricted to the shapes the program
produces: the base (a compiled directory prefix) is empty or ends in the
separator, so no separator is inserted; a path that is absolute (starts
with the separator) replaces the base entirely. -/
def pathJoin (d f : List Char) : List Char :=
  if f.head? = some '/' then f else d ++ f

/-- The `for (marker_index, block) in markers.zip(blocks.skip(1))` loop of
`DestinationPathTemplate::substitute`: builds the concatenation of
`fragments[m - 1] ++ block` over the zipped pairs.  The source's panics
(index out of range, and the `usize` underflow of `0 - 1`) are modelled as
`none`. -/
def substLoop (frags : List (List Char)) : List (Nat × List Char) →
    Option (List Char)
  | [] => some []
  | (m, b) :: rest =>
    if m = 0 then none
    else
      (frags.get? (m - 1)).bind fun f =>
        (substLoop frags rest).map fun r => f ++ b ++ r

/-- Embedding of `DestinationPathTemplate::substitute`: start from
`literal_blocks[0]` (an empty block list, unreachable for compiled
templates, is modelled as `none` like any panic), append
`fragments[marker - 1]` then the following block for each marker, and
join the result onto the directory. -/
def DestinationPathTemplate.substitute (t : DestinationPathTemplate)
    (fragments_values : List (List Char)) : Option (List Char) :=
  match t.literal_blocks with
  | [] => none
  | b0 :: rest =>
    (substLoop fragments_values (t.markers.zip rest)).map fun f =>
      pathJoin t.directory (b0 ++ f)

/-- Error type of `FromStr for SourcePathPattern` (the source carries a
fixed static message saying the wildcard can only appear in a filename). -/
inductive SourcePatternError where
  | wildcardOnlyAllowedInFilename
deriving DecidableEq, Repr

/-- Embedding of `SourcePathPattern` (src/lib/src/source_path_pattern.rs):
a literal directory prefix and a compiled glob for the filename segment. -/
structure SourcePathPattern where
  directory : List Char
  filename_pattern : GlobStarPattern
deriving DecidableEq, Repr

/-- Embedding of `impl FromStr for SourcePathPattern`: split at the last
path separator; reject a wildcard in the directory part; compile the
filename part as a glob. -/
def SourcePathPattern.from_str (s : List Char) :
    Except SourcePatternError SourcePathPattern :=
  if (s.take (dirSplitLen s)).contains '*' then
    .error .wildcardOnlyAllowedInFilename
  else
    .ok ⟨s.take (dirSplitLen s),
      GlobStarPattern.fromString (s.drop (dirSplitLen s))⟩

/-- Embedding of `SourcePathPattern::wildcards_number`. -/
def SourcePathPattern.wildcards_number (p : SourcePathPattern) : Nat :=
  p.filename_pattern.wildcards_number

/-- Model of `Display for SourcePathPattern`: the directory (a `PathBuf`
built from a string, read back verbatim by `to_str`) followed by the
filename pattern's display. -/
def SourcePathPattern.display (p : SourcePathPattern) : List Char :=
  p.directory ++ p.filename_pattern.display

/-- One directory entry as observed by `SourcePathPattern::matching_files`
after the metadata read succeeded: `utf8Name` is `file_name().to_str()`
(`none` when the OS filename is not valid UTF-8), `isFile` is
`metadata().is_file()`.  The surrounding I/O (reading the directory,
fetching metadata) is the boundary of the embedding; an entry in this list
stands for an entry both reads succeeded on. -/
structure DirEntry where
  utf8Name : Option (List Char)
  isFile : Bool
deriving DecidableEq, Repr

/-- The per-entry loop body of `SourcePathPattern::matching_files`:
directories are skipped, filenames that are not valid UTF-8 are skipped,
names the glob rejects are skipped; a match contributes
`(directory.join(file_name), fragments)`. -/
def matchingFilesLoop (p : SourcePathPattern) :
    List DirEntry → List (List Char × List (List Char))
  | [] => []
  | e :: rest =>
    if e.isFile then
      match e.utf8Name with
      | none => matchingFilesLoop p rest
      | some n =>
        match p.filename_pattern.match_string n with
        | none => matchingFilesLoop p rest
        | some caps => (pathJoin p.directory n, caps) :: matchingFilesLoop p rest
    else matchingFilesLoop p rest

/-- Embedding of `SourcePathPattern::matching_files` over an explicit
entry list (the successful-I/O path: `read_dir` and every `metadata` call
succeeded, so no error is produced and the result is the matched list). -/
def SourcePathPattern.matching_files (p : SourcePathPattern)
    (entries : List DirEntry) : List (List Char × List (List Char)) :=
  matchingFilesLoop p entries

/-! Spec-side definitions, written from the specification's words, to be
compared with the source-side functions above (refinement claims). -/

/-- Spec-side rendering of the middle part of the match decomposition
(spec section 4.1, step 3): each capture is the text before the first,
i.e. leftmost and hence length-minimal, occurrence of the corresponding
middle literal block, and the scan continues past that occurrence;
`r` is the text remaining after all middle blocks. -/
def MiddlesDecompSpec : List (List Char) → List Char → List (List Char) →
    List Char → Prop
  | [], s, caps, r => caps = [] ∧ r = s
  | b :: bs, s, caps, r =>
    ∃ c t caps2, caps = c :: caps2 ∧ s = c ++ b ++ t ∧
      (∀ c2 t2, s = c2 ++ b ++ t2 → c.length ≤ c2.length) ∧
      MiddlesDecompSpec bs t caps2 r

/-- Spec-side rendering of the whole match decomposition (spec section 8,
"Match decomposition"): the candidate is literal block 0, then captures
interleaved with the middle blocks at their leftmost occurrences, and the
final block is a suffix of what remains, the text before it being the
last capture. -/
def MatchDecompSpec (blocks : List (List Char)) (s : List Char)
    (caps : List (List Char)) : Prop :=
  match blocks with
  | [] => False
  | [b0] => caps = [] ∧ s = b0
  | b0 :: rest =>
    ∃ s1 caps1 clast r, s = b0 ++ s1 ∧ caps = caps1 ++ [clast] ∧
      MiddlesDecompSpec rest.dropLast s1 caps1 r ∧
      r = clast ++ rest.getLastD []

/-- Spec-side rendering of the substituted destination filename (spec
section 4.2): the concatenation of literal block 0, then for each marker
the fragment at index marker minus one followed by the next literal
block. -/
def substFilenameSpec (t : DestinationPathTemplate)
    (frags : List (List Char)) : List Char :=
  t.literal_blocks.headD [] ++
    ((t.markers.zip t.literal_blocks.tail).map
      (fun mb => (frags.get? (mb.1 - 1)).getD [] ++ mb.2)).flatten

/-! Helper lemmas. -/

theorem strip_prefix_of_eq_some {p s r : List Char} :
    strip_prefix_of p s = some r ↔ s = p ++ r := by
  unfold strip_prefix_of
  by_cases h : p.isPrefixOf s
  · obtain ⟨t, rfl⟩ := List.isPrefixOf_iff_prefix.mp h
    simp [h]
  · simp only [h, if_false, Bool.false_eq_true, reduceCtorEq, false_iff]
    intro heq
    exact h <| List.isPrefixOf_iff_prefix.mpr ⟨r, heq.symm⟩

theorem strip_suffix_of_eq_some {p s r : List Char} :
    strip_suffix_of p s = some r ↔ s = r ++ p := by
  unfold strip_suffix_of
  by_cases h : p.isSuffixOf s
  · rw [if_pos h]
    obtain ⟨t, rfl⟩ := List.isSuffixOf_iff_suffix.mp h
    have htake : (t ++ p).take ((t ++ p).length - p.length) = t := by simp
    rw [htake]
    simp
  · rw [if_neg h]
    constructor
    · intro h2; exact Option.noConfusion h2
    · intro heq
      exact absurd (List.isSuffixOf_iff_suffix.mpr ⟨r, heq.symm⟩) h

theorem findFirst_eq_some {needle s : List Char} {i : Nat} :
    findFirst needle s = some i ↔
      needle.isPrefixOf (s.drop i) ∧
        ∀ j, j < i → ¬ needle.isPrefixOf (s.drop j) := by
  induction s generalizing i with
  | nil =>
    constructor
    · intro h
      unfold findFirst at h
      by_cases hp : needle.isPrefixOf ([] : List Char)
      · rw [if_pos hp] at h
        obtain rfl : (0 : Nat) = i := Option.some.inj h
        exact ⟨by simpa using hp, fun j hj => absurd hj (Nat.not_lt_zero j)⟩
      · rw [if_neg hp] at h
        exact Option.noConfusion h
    · rintro ⟨hpre, hmin⟩
      rw [List.drop_nil] at hpre
      unfold findFirst
      rw [if_pos hpre]
      have hi : i = 0 := by
        by_contra hne
        exact hmin 0 (Nat.pos_of_ne_zero hne) (by simpa using hpre)
      rw [hi]
  | cons c t ih =>
    constructor
    · intro h
      unfold findFirst at h
      by_cases hp : needle.isPrefixOf (c :: t)
      · rw [if_pos hp] at h
        obtain rfl : (0 : Nat) = i := Option.some.inj h
        exact ⟨by simpa using hp, fun j hj => absurd hj (Nat.not_lt_zero j)⟩
      · rw [if_neg hp] at h
        cases hf : findFirst needle t with
        | none => rw [hf] at h; exact Option.noConfusion h
        | some i2 =>
          rw [hf] at h
          simp only [Option.map_some'] at h
          obtain rfl : i2 + 1 = i := Option.some.inj h
          obtain ⟨hpre, hmin⟩ := ih.mp hf
          refine ⟨by simpa using hpre, ?_⟩
          intro j hj
          cases j with
          | zero => simpa using hp
          | succ j2 =>
            intro hq
            exact hmin j2 (by omega) (by simpa using hq)
    · rintro ⟨hpre, hmin⟩
      unfold findFirst
      by_cases hp : needle.isPrefixOf (c :: t)
      · rw [if_pos hp]
        have hi : i = 0 := by
          by_contra hne
          exact hmin 0 (Nat.pos_of_ne_zero hne) (by simpa using hp)
        rw [hi]
      · rw [if_neg hp]
        cases i with
        | zero => exact absurd (by simpa using hpre) hp
        | succ i2 =>
          have hf : findFirst needle t = some i2 := by
            apply ih.mpr
            refine ⟨by simpa using hpre, ?_⟩
            intro j hj hq
            exact hmin (j + 1) (by omega) (by simpa using hq)
          rw [hf]
          rfl

theorem findFirst_le_length {needle s : List Char} {i : Nat}
    (h : findFirst needle s = some i) : i ≤ s.length := by
  induction s generalizing i with
  | nil =>
    unfold findFirst at h
    by_cases hp : needle.isPrefixOf ([] : List Char)
    · simp only [hp, if_true, Option.some.injEq] at h
      omega
    · simp [hp] at h
  | cons c t ih =>
    unfold findFirst at h
    by_cases hp : needle.isPrefixOf (c :: t)
    · rw [if_pos hp] at h
      obtain rfl : (0 : Nat) = i := Option.some.inj h
      omega
    · rw [if_neg hp] at h
      cases hf : findFirst needle t with
      | none => rw [hf] at h; exact Option.noConfusion h
      | some i2 =>
        rw [hf] at h
        simp only [Option.map_some'] at h
        obtain rfl : i2 + 1 = i := Option.some.inj h
        have := ih hf
        simp only [List.length_cons]
        omega

theorem matchMiddles_length {bs : List (List Char)} {s : List Char}
    {caps : List (List Char)} {r : List Char}
    (h : matchMiddles bs s = some (caps, r)) : caps.length = bs.length := by
  induction bs generalizing s caps r with
  | nil =>
    simp only [matchMiddles, Option.some.injEq, Prod.mk.injEq] at h
    obtain ⟨rfl, rfl⟩ := h
    rfl
  | cons b bs ih =>
    simp only [matchMiddles, Option.bind_eq_some, Option.map_eq_some'] at h
    obtain ⟨i, hf, ⟨caps2, r2⟩, hm, heq⟩ := h
    simp only [Prod.mk.injEq] at heq
    obtain ⟨rfl, rfl⟩ := heq
    simp [ih hm]

theorem matchMiddles_eq_some {bs : List (List Char)} {s : List Char}
    {caps : List (List Char)} {r : List Char} :
    matchMiddles bs s = some (caps, r) ↔ MiddlesDecompSpec bs s caps r := by
  induction bs generalizing s caps r with
  | nil =>
    simp only [matchMiddles, MiddlesDecompSpec, Option.some.injEq, Prod.mk.injEq]
    constructor
    · rintro ⟨rfl, rfl⟩; exact ⟨rfl, rfl⟩
    · rintro ⟨rfl, rfl⟩; exact ⟨rfl, rfl⟩
  | cons b bs ih =>
    constructor
    · intro h
      simp only [matchMiddles, Option.bind_eq_some, Option.map_eq_some'] at h
      obtain ⟨i, hf, ⟨caps2, r2⟩, hm, heq⟩ := h
      simp only [Prod.mk.injEq] at heq
      obtain ⟨rfl, rfl⟩ := heq
      obtain ⟨hpre, hmin⟩ := findFirst_eq_some.mp hf
      have hile : i ≤ s.length := findFirst_le_length hf
      obtain ⟨t0, ht0⟩ := List.isPrefixOf_iff_prefix.mp hpre
      have ht0d : t0 = s.drop (i + b.length) := by
        have h1 : (s.drop i).drop b.length = t0 := by
          rw [← ht0]; simp
        rw [← h1, List.drop_drop, Nat.add_comm]
      have hs : s = s.take i ++ b ++ t0 := by
        conv_lhs => rw [← List.take_append_drop i s, ← ht0]
        rw [List.append_assoc]
      refine ⟨s.take i, t0, caps2, rfl, hs, ?_, ?_⟩
      · intro c2 t2 hdec
        have hpre2 : b.isPrefixOf (s.drop c2.length) := by
          rw [hdec, List.append_assoc, List.drop_left]
          exact List.isPrefixOf_iff_prefix.mpr ⟨t2, rfl⟩
        by_contra hlt
        rw [List.length_take] at hlt
        exact hmin c2.length (by omega) hpre2
      · rw [← ht0d] at hm
        exact ih.mp hm
    · intro h
      obtain ⟨c, t, caps2, rfl, hs, hminDec, hrec⟩ := h
      have hdropc : s.drop c.length = b ++ t := by
        rw [hs, List.append_assoc, List.drop_left]
      have htakec : s.take c.length = c := by
        rw [hs, List.append_assoc, List.take_left]
      have hdropcb : s.drop (c.length + b.length) = t := by
        rw [hs]
        have : c.length + b.length = (c ++ b).length := by simp
        rw [this, List.drop_left]
      have hfind : findFirst b s = some c.length := by
        apply findFirst_eq_some.mpr
        refine ⟨by rw [hdropc]; exact List.isPrefixOf_iff_prefix.mpr ⟨t, rfl⟩, ?_⟩
        intro j hj hq
        obtain ⟨t2, ht2⟩ := List.isPrefixOf_iff_prefix.mp hq
        have hjle : j ≤ s.length := by
          have : c.length ≤ s.length := by
            rw [hs]; simp only [List.length_append]; omega
          omega
        have hdec : s = s.take j ++ b ++ t2 := by
          conv_lhs => rw [← List.take_append_drop j s, ← ht2]
          rw [List.append_assoc]
        have hle := hminDec (s.take j) t2 hdec
        rw [List.length_take] at hle
        omega
      simp only [matchMiddles, Option.bind_eq_some, Option.map_eq_some']
      refine ⟨c.length, hfind, (caps2, r), ?_, ?_⟩
      · rw [hdropcb]
        exact ih.mpr hrec
      · rw [htakec]

theorem glob_blocks_ne_nil (s : List Char) :
    (GlobStarPattern.fromString s).literal_blocks ≠ [] :=
  List.splitOnP_ne_nil _ s

/-- C4: for every GlobStarPattern `P` with a nonempty block list and every
string `s`, `match_string P s = some caps` iff `s` decomposes as block 0,
then captures interleaved with the middle blocks, each middle block at its
leftmost occurrence in the remaining text, the final block a suffix of
what remains; and a successful match returns exactly one capture per
wildcard. -/
theorem match_string_decomposition :
    ∀ (p : GlobStarPattern) (s : List Char) (caps : List (List Char)),
      p.literal_blocks ≠ [] →
      (p.match_string s = some caps ↔ MatchDecompSpec p.literal_blocks s caps) ∧
        (p.match_string s = some caps → caps.length = p.wildcards_number) := by
  rintro ⟨blocks⟩ s caps hne
  cases blocks with
  | nil => exact absurd rfl hne
  | cons b0 rest =>
    cases rest with
    | nil =>
      constructor
      · show (strip_prefix_of b0 s).bind _ = some caps ↔ caps = [] ∧ s = b0
        constructor
        · intro h
          simp only [Option.bind_eq_some] at h
          obtain ⟨s1, hstrip, hif⟩ := h
          by_cases h1 : s1 = []
          · rw [if_pos h1] at hif
            obtain rfl : [] = caps := Option.some.inj hif
            subst h1
            have := strip_prefix_of_eq_some.mp hstrip
            simp at this
            exact ⟨rfl, this⟩
          · rw [if_neg h1] at hif
            exact absurd hif (by exact Option.noConfusion)
        · rintro ⟨rfl, rfl⟩
          simp only [Option.bind_eq_some]
          exact ⟨[], strip_prefix_of_eq_some.mpr (by simp), by rw [if_pos rfl]⟩
      · intro h
        show caps.length = 0
        simp only [GlobStarPattern.match_string, Option.bind_eq_some] at h
        obtain ⟨s1, hstrip, hif⟩ := h
        by_cases h1 : s1 = []
        · rw [if_pos h1] at hif
          obtain rfl : [] = caps := Option.some.inj hif
          rfl
        · rw [if_neg h1] at hif
          exact absurd hif (by exact Option.noConfusion)
    | cons r1 rest2 =>
      have hred : (GlobStarPattern.mk (b0 :: r1 :: rest2)).match_string s
          = (strip_prefix_of b0 s).bind fun s1 =>
              (matchMiddles (r1 :: rest2).dropLast s1).bind fun cr =>
                (strip_suffix_of ((r1 :: rest2).getLastD []) cr.2).map fun clast =>
                  cr.1 ++ [clast] := rfl
      constructor
      · rw [hred]
        constructor
        · intro h
          simp only [Option.bind_eq_some, Option.map_eq_some'] at h
          obtain ⟨s1, hstrip, ⟨caps1, r⟩, hmid, clast, hsuf, hcaps⟩ := h
          show ∃ s1 caps1 clast r, _
          refine ⟨s1, caps1, clast, r, (strip_prefix_of_eq_some.mp hstrip), hcaps.symm,
            matchMiddles_eq_some.mp hmid, strip_suffix_of_eq_some.mp hsuf⟩
        · intro h
          obtain ⟨s1, caps1, clast, r, hs, hcaps, hmid, hr⟩ := h
          simp only [Option.bind_eq_some, Option.map_eq_some']
          exact ⟨s1, strip_prefix_of_eq_some.mpr hs, (caps1, r),
            matchMiddles_eq_some.mpr hmid, clast, strip_suffix_of_eq_some.mpr hr,
            hcaps.symm⟩
      · rw [hred]
        intro h
        simp only [Option.bind_eq_some, Option.map_eq_some'] at h
        obtain ⟨s1, hstrip, ⟨caps1, r⟩, hmid, clast, hsuf, hcaps⟩ := h
        have hlen := matchMiddles_length hmid
        show caps.length = (b0 :: r1 :: rest2).length - 1
        rw [← hcaps]
        simp only [List.length_append, List.length_cons, List.length_nil] at *
        simp only [List.length_dropLast, List.length_cons] at hlen
        omega

theorem findMarkerIndex_eq_some {rest : List Char} {max k : Nat} :
    findMarkerIndex rest max = some k ↔
      1 ≤ k ∧ k ≤ max ∧ (Nat.toDigits 10 k).isPrefixOf rest ∧
        ∀ j, k < j → j ≤ max → ¬ (Nat.toDigits 10 j).isPrefixOf rest := by
  induction max with
  | zero =>
    constructor
    · intro h
      rw [show findMarkerIndex rest 0 = none from rfl] at h
      exact Option.noConfusion h
    · rintro ⟨h1, h2, -, -⟩
      omega
  | succ m ih =>
    have hstep : findMarkerIndex rest (m + 1)
        = if (Nat.toDigits 10 (m + 1)).isPrefixOf rest then some (m + 1)
          else findMarkerIndex rest m := rfl
    by_cases hp : (Nat.toDigits 10 (m + 1)).isPrefixOf rest
    · rw [hstep, if_pos hp]
      constructor
      · intro h
        obtain rfl : m + 1 = k := Option.some.inj h
        exact ⟨by omega, Nat.le_refl _, hp, fun j hj1 hj2 => by intro _; omega⟩
      · rintro ⟨h1, h2, h3, h4⟩
        have hk : k = m + 1 ∨ k < m + 1 := by omega
        rcases hk with rfl | hk
        · rfl
        · exact absurd hp (h4 (m + 1) hk (Nat.le_refl _))
    · rw [hstep, if_neg hp]
      rw [ih]
      constructor
      · rintro ⟨h1, h2, h3, h4⟩
        refine ⟨h1, by omega, h3, ?_⟩
        intro j hj1 hj2
        rcases Nat.lt_or_ge j (m + 1) with hlt | hge
        · exact h4 j hj1 (by omega)
        · have : j = m + 1 := by omega
          subst this
          exact hp
      · rintro ⟨h1, h2, h3, h4⟩
        have hkne : k ≠ m + 1 := by
          rintro rfl
          exact hp h3
        exact ⟨h1, by omega, h3, fun j hj1 hj2 => h4 j hj1 (by omega)⟩

theorem findMarkerIndex_eq_none {rest : List Char} {max : Nat} :
    findMarkerIndex rest max = none ↔
      ∀ j, 1 ≤ j → j ≤ max → ¬ (Nat.toDigits 10 j).isPrefixOf rest := by
  induction max with
  | zero =>
    constructor
    · intro _ j h1 h2
      intro _
      omega
    · intro _
      rfl
  | succ m ih =>
    have hstep : findMarkerIndex rest (m + 1)
        = if (Nat.toDigits 10 (m + 1)).isPrefixOf rest then some (m + 1)
          else findMarkerIndex rest m := rfl
    by_cases hp : (Nat.toDigits 10 (m + 1)).isPrefixOf rest
    · rw [hstep, if_pos hp]
      constructor
      · intro h; exact Option.noConfusion h
      · intro h
        exact absurd hp (h (m + 1) (by omega) (Nat.le_refl _))
    · rw [hstep, if_neg hp]
      rw [ih]
      constructor
      · intro h j h1 h2
        rcases Nat.lt_or_ge j (m + 1) with hlt | hge
        · exact h j h1 (by omega)
        · have : j = m + 1 := by omega
          subst this
          exact hp
      · intro h j h1 h2
        exact h j h1 (by omega)

theorem compileLoop_invariant {max : Nat} : ∀ {fuel : Nat} {rem : List Char}
    {off : Nat} {ms : List Nat} {bs : List (List Char)},
    compileLoop max fuel rem off = some (ms, bs) →
    bs.length = ms.length + 1 ∧ ∀ m ∈ ms, 1 ≤ m ∧ m ≤ max := by
  intro fuel
  induction fuel with
  | zero =>
    intro rem off ms bs h
    exact Option.noConfusion h
  | succ n ih =>
    intro rem off ms bs h
    unfold compileLoop at h
    split at h
    · obtain ⟨h1, h2⟩ := Prod.mk.injEq .. ▸ Option.some.inj h
      subst h1
      subst h2
      exact ⟨rfl, fun m hm => absurd hm (List.not_mem_nil m)⟩
    · split at h
      · next k hk =>
        simp only [Option.map_eq_some'] at h
        obtain ⟨⟨ms2, bs2⟩, hrec, heq⟩ := h
        obtain ⟨h1, h2⟩ := Prod.mk.injEq .. ▸ heq
        subst h1
        subst h2
        obtain ⟨ihl, ihm⟩ := ih hrec
        obtain ⟨hk1, hk2, -, -⟩ := findMarkerIndex_eq_some.mp hk
        refine ⟨by simp [ihl], ?_⟩
        intro m hm
        rcases List.mem_cons.mp hm with rfl | hm2
        · exact ⟨hk1, hk2⟩
        · exact ihm m hm2
      · exact ih h

theorem substLoop_eq_none {frags : List (List Char)} {l : List (Nat × List Char)} :
    substLoop frags l = none ↔ ∃ mb ∈ l, mb.1 = 0 ∨ frags.length < mb.1 := by
  induction l with
  | nil => simp [substLoop]
  | cons mb rest ih =>
    obtain ⟨m, b⟩ := mb
    by_cases hm : m = 0
    · subst hm
      have hnone : substLoop frags ((0, b) :: rest) = none := by
        rw [substLoop, if_pos rfl]
      rw [hnone]
      constructor
      · intro _
        exact ⟨(0, b), List.mem_cons_self _ _, Or.inl rfl⟩
      · intro _
        rfl
    · rw [substLoop, if_neg hm]
      cases hg : frags.get? (m - 1) with
      | none =>
        simp only [Option.none_bind, true_iff]
        have := List.get?_eq_none.mp hg
        exact ⟨(m, b), List.mem_cons_self _ _, Or.inr (by omega)⟩
      | some f =>
        have hmlt : m ≤ frags.length := by
          have h1 : m - 1 < frags.length := by
            by_contra hge
            rw [List.get?_eq_none.mpr (by omega)] at hg
            exact Option.noConfusion hg
          omega
        cases hs : substLoop frags rest with
        | none =>
          simp only [Option.some_bind, Option.map_none', true_iff]
          obtain ⟨mb2, hmem, hcase⟩ := ih.mp hs
          exact ⟨mb2, List.mem_cons_of_mem _ hmem, hcase⟩
        | some r =>
          simp only [Option.some_bind, Option.map_some', reduceCtorEq, false_iff]
          rintro ⟨mb2, hmem, hcase⟩
          rcases List.mem_cons.mp hmem with rfl | hmem2
          · rcases hcase with h0 | hlen
            · exact hm h0
            · omega
          · have : substLoop frags rest = none := ih.mpr ⟨mb2, hmem2, hcase⟩
            rw [this] at hs
            exact Option.noConfusion hs

theorem substLoop_eq_some_of {frags : List (List Char)} {l : List (Nat × List Char)}
    (h : ∀ mb ∈ l, 1 ≤ mb.1 ∧ mb.1 ≤ frags.length) :
    substLoop frags l
      = some ((l.map fun mb => (frags.get? (mb.1 - 1)).getD [] ++ mb.2)).flatten := by
  induction l with
  | nil => rfl
  | cons mb rest ih =>
    obtain ⟨m, b⟩ := mb
    obtain ⟨hm1, hm2⟩ := h (m, b) (List.mem_cons_self _ _)
    have hm0 : ¬ m = 0 := by omega
    obtain ⟨f, hf⟩ : ∃ f, frags.get? (m - 1) = some f := by
      cases hg : frags.get? (m - 1) with
      | none =>
        have := List.get?_eq_none.mp hg
        omega
      | some f => exact ⟨f, rfl⟩
    rw [substLoop, if_neg hm0, hf,
      ih (fun mb2 hmb2 => h mb2 (List.mem_cons_of_mem _ hmb2))]
    simp only [List.map_cons, List.flatten_cons, hf, Option.getD_some,
      Option.some_bind, Option.map_some', Option.some.injEq, List.append_assoc]

theorem dirSplitLen_last_slash (s : List Char) :
    ¬ '/' ∈ s.drop (dirSplitLen s) ∧
      (dirSplitLen s = 0 ∨ s.get? (dirSplitLen s - 1) = some '/') := by
  induction s with
  | nil => exact ⟨by simp, Or.inl rfl⟩
  | cons c t ih =>
    obtain ⟨ih1, ih2⟩ := ih
    by_cases hr : dirSplitLen t = 0
    · by_cases hc : c = '/'
      · have hd : dirSplitLen (c :: t) = 1 := by
          rw [dirSplitLen, if_pos hr, if_pos hc]
        refine ⟨?_, Or.inr ?_⟩
        · rw [hd]
          simpa [hr] using ih1
        · rw [hd]
          simp [hc]
      · have hd : dirSplitLen (c :: t) = 0 := by
          rw [dirSplitLen, if_pos hr, if_neg hc]
        refine ⟨?_, Or.inl hd⟩
        rw [hd, List.drop_zero]
        intro hmem
        rcases List.mem_cons.mp hmem with h | h
        · exact hc h.symm
        · rw [hr, List.drop_zero] at ih1
          exact ih1 h
    · have hd : dirSplitLen (c :: t) = dirSplitLen t + 1 := by
        rw [dirSplitLen, if_neg hr]
      refine ⟨?_, Or.inr ?_⟩
      · rw [hd]
        simpa using ih1
      · rw [hd]
        rcases ih2 with h | h
        · exact absurd h hr
        · simpa [List.get?_cons_succ, show dirSplitLen t + 1 - 1
            = (dirSplitLen t - 1) + 1 from by omega] using h

/-! Claim theorems. -/

/-- C7: `GlobStarPattern::from` is total, but
`DestinationPathTemplate::compile` is not: on the template consisting of
two adjacent sigils, with `max_marker_index = 0`, the scan loop never
terminates — after a sigil fails to resolve, the code restarts the search
at the sigil's position *relative to the previous offset* plus one, which
revisits the same sigil forever.  No iteration bound (`fuel`) suffices to
make the loop produce a result. -/
theorem compile_diverges_on_double_sigil :
    (∀ s : List Char, ∃ bs, GlobStarPattern.fromString s = ⟨bs⟩ ∧ bs ≠ []) ∧
      ∀ fuel, DestinationPathTemplate.compile fuel "##".data 0 = none := by
  constructor
  · intro s
    exact ⟨s.splitOn '*', rfl, glob_blocks_ne_nil s⟩
  · have haux : ∀ fuel, compileLoop 0 fuel ['#', '#'] 1 = none := by
      intro fuel
      induction fuel with
      | zero => rfl
      | succ n ih => exact ih
    have haux0 : ∀ fuel, compileLoop 0 fuel ['#', '#'] 0 = none := by
      intro fuel
      cases fuel with
      | zero => rfl
      | succ n => exact haux n
    intro fuel
    unfold DestinationPathTemplate.compile
    rw [show "##".data.drop (dirSplitLen "##".data) = ['#', '#'] from rfl,
      haux0 fuel]

/-- C9: in matching_files, a regular-file entry whose filename is not
valid UTF-8 is silently skipped: it contributes neither an error (the
function still returns its list) nor a result entry, wherever it occurs
in the directory listing. -/
theorem matching_files_skips_non_utf8 :
    ∀ (p : SourcePathPattern) (es1 es2 : List DirEntry),
      p.matching_files (es1 ++ ⟨none, true⟩ :: es2) = p.matching_files (es1 ++ es2) := by
  intro p es1 es2
  unfold SourcePathPattern.matching_files
  induction es1 with
  | nil => rfl
  | cons e rest ih =>
    rw [List.cons_append, List.cons_append]
    simp only [matchingFilesLoop]
    rw [ih]

/-- C10: compiling any pattern string, the empty string included, yields
at least one literal block, so the subtraction in wildcards_number never
underflows and the first and last literal block are always there for
match_string to access. -/
theorem fromString_blocks_nonempty :
    ∀ s : List Char,
      (∃ b bs, (GlobStarPattern.fromString s).literal_blocks = b :: bs) ∧
      (GlobStarPattern.fromString s).wildcards_number + 1
        = (GlobStarPattern.fromString s).literal_blocks.length ∧
      (GlobStarPattern.fromString s).literal_blocks.head?.isSome ∧
      (GlobStarPattern.fromString s).literal_blocks.getLast?.isSome := by
  intro s
  obtain ⟨b, bs, hbs⟩ : ∃ b bs,
      (GlobStarPattern.fromString s).literal_blocks = b :: bs := by
    cases hx : (GlobStarPattern.fromString s).literal_blocks with
    | nil => exact absurd hx (glob_blocks_ne_nil s)
    | cons b bs => exact ⟨b, bs, rfl⟩
  refine ⟨⟨b, bs, hbs⟩, ?_, ?_, ?_⟩
  · unfold GlobStarPattern.wildcards_number
    rw [hbs]
    simp
  · rw [hbs]
    simp
  · rw [hbs]
    simp [List.getLast?_isSome]

/-- C5: re-serializing a compiled pattern reproduces the input exactly:
joining a compiled glob's literal blocks with the wildcard sigil yields
the original string, and the display of a successfully parsed source
pattern (directory prefix, then the filename glob's display) yields the
original string. -/
theorem pattern_display_round_trip :
    (∀ s : List Char, (GlobStarPattern.fromString s).display = s) ∧
    (∀ (s : List Char) (p : SourcePathPattern),
        SourcePathPattern.from_str s = .ok p → p.display = s) := by
  constructor
  · intro s
    exact List.intercalate_splitOn s '*'
  · intro s p h
    unfold SourcePathPattern.from_str at h
    by_cases hstar : (s.take (dirSplitLen s)).contains '*'
    · rw [if_pos hstar] at h
      exact Except.noConfusion h
    · rw [if_neg hstar] at h
      obtain rfl := (Except.ok.inj h).symm
      show s.take (dirSplitLen s)
          ++ (GlobStarPattern.fromString (s.drop (dirSplitLen s))).display = s
      rw [show (GlobStarPattern.fromString (s.drop (dirSplitLen s))).display
          = s.drop (dirSplitLen s) from List.intercalate_splitOn _ '*']

      exact List.take_append_drop _ s

/-- C6: parsing a source pattern fails, with the
wildcard-only-allowed-in-filename error, exactly when the directory
prefix (the text up to and including the last path separator) contains
the wildcard sigil; parsing of a pattern with a wildcard in a directory
name fails; and on success the filename segment is compiled as a
GlobStarPattern. -/
theorem from_str_wildcard_in_directory :
    (∀ s : List Char,
        SourcePathPattern.from_str s = .error .wildcardOnlyAllowedInFilename ↔
          (s.take (dirSplitLen s)).contains '*') ∧
    SourcePathPattern.from_str "b*d/pattern".data
      = .error .wildcardOnlyAllowedInFilename ∧
    (∀ (s : List Char) (p : SourcePathPattern),
        SourcePathPattern.from_str s = .ok p →
          p = ⟨s.take (dirSplitLen s),
            GlobStarPattern.fromString (s.drop (dirSplitLen s))⟩) := by
  refine ⟨?_, by rfl, ?_⟩
  · intro s
    unfold SourcePathPattern.from_str
    by_cases hstar : (s.take (dirSplitLen s)).contains '*'
    · rw [if_pos hstar]
      exact ⟨fun _ => hstar, fun _ => rfl⟩
    · rw [if_neg hstar]
      constructor
      · intro h
        exact Except.noConfusion h
      · intro h
        exact absurd h hstar
  · intro s p h
    unfold SourcePathPattern.from_str at h
    by_cases hstar : (s.take (dirSplitLen s)).contains '*'
    · rw [if_pos hstar] at h
      exact Except.noConfusion h
    · rw [if_neg hstar] at h
      exact (Except.ok.inj h).symm

/-- C3: at each sigil the scan resolves to the largest index `k` between 1
and `max_marker_index` whose decimal digit string is a prefix of the text
after the sigil — `findMarkerIndex` returns `k` exactly when `k` is valid
and every larger candidate is not, and returns nothing exactly when no
candidate is valid (the sigil is then kept as a literal); in particular
compiling `"#1#12#123#1#123"` with maximum 12 yields markers
`[1, 12, 12, 1, 12]` and literal blocks `["", "", "", "3", "", "3"]`. -/
theorem compile_marker_resolution :
    (∀ (rest : List Char) (max k : Nat),
        findMarkerIndex rest max = some k ↔
          1 ≤ k ∧ k ≤ max ∧ (Nat.toDigits 10 k).isPrefixOf rest ∧
            ∀ j, k < j → j ≤ max → ¬ (Nat.toDigits 10 j).isPrefixOf rest) ∧
    (∀ (rest : List Char) (max : Nat),
        findMarkerIndex rest max = none ↔
          ∀ j, 1 ≤ j → j ≤ max → ¬ (Nat.toDigits 10 j).isPrefixOf rest) ∧
    DestinationPathTemplate.compile 64 "#1#12#123#1#123".data 12
      = some ⟨"".data, [1, 12, 12, 1, 12],
          ["".data, "".data, "".data, "3".data, "".data, "3".data]⟩ := by
  exact ⟨fun rest max k => findMarkerIndex_eq_some,
    fun rest max => findMarkerIndex_eq_none, by decide⟩

/-- C8: compile keeps the text up to and including the last path
separator verbatim as the directory (`dirSplitLen` provably points one
past the last separator), the recorded markers depend only on the
filename remainder after that separator, and the template
`"path#1/#1#2.png"` keeps the sigil inside the directory uninterpreted. -/
theorem compile_directory_verbatim :
    (∀ (fuel : Nat) (s : List Char) (max : Nat) (t : DestinationPathTemplate),
        DestinationPathTemplate.compile fuel s max = some t →
          t.directory = s.take (dirSplitLen s)) ∧
    (∀ s : List Char, ¬ '/' ∈ s.drop (dirSplitLen s) ∧
        (dirSplitLen s = 0 ∨ s.get? (dirSplitLen s - 1) = some '/')) ∧
    (∀ (fuel : Nat) (s1 s2 : List Char) (max : Nat),
        s1.drop (dirSplitLen s1) = s2.drop (dirSplitLen s2) →
          (DestinationPathTemplate.compile fuel s1 max).map
              DestinationPathTemplate.markers
            = (DestinationPathTemplate.compile fuel s2 max).map
              DestinationPathTemplate.markers) ∧
    DestinationPathTemplate.compile 64 "path#1/#1#2.png".data 3
      = some ⟨"path#1/".data, [1, 2], ["".data, "".data, ".png".data]⟩ := by
  refine ⟨?_, dirSplitLen_last_slash, ?_, by decide⟩
  · intro fuel s max t h
    unfold DestinationPathTemplate.compile at h
    split at h
    · exact Option.noConfusion h
    · obtain rfl := (Option.some.inj h).symm
      rfl
  · intro fuel s1 s2 max hdrop
    unfold DestinationPathTemplate.compile
    rw [hdrop]
    cases hloop : compileLoop max fuel (s2.drop (dirSplitLen s2)) 0 with
    | none => rfl
    | some mb =>
      obtain ⟨ms, bs⟩ := mb
      rfl

/-- C1: for a compiled template, substitution fails exactly when some
recorded marker index exceeds the fragment count (the source's
out-of-bounds panic, modelled as the `none` outcome the caller observes),
and succeeds whenever no marker index exceeds it — it never pads or
truncates. -/
theorem substitute_out_of_range :
    ∀ (fuel : Nat) (s : List Char) (max : Nat) (frags : List (List Char))
      (t : DestinationPathTemplate),
      DestinationPathTemplate.compile fuel s max = some t →
      ((t.substitute frags = none ↔ ∃ m ∈ t.markers, frags.length < m) ∧
        ((∀ m ∈ t.markers, m ≤ frags.length) →
          ∃ out, t.substitute frags = some out)) := by
  intro fuel s max frags t hc
  unfold DestinationPathTemplate.compile at hc
  split at hc
  · exact Option.noConfusion hc
  · next ms bs hloop =>
    obtain rfl := (Option.some.inj hc).symm
    obtain ⟨hlen, hbound⟩ := compileLoop_invariant hloop
    cases bs with
    | nil =>
      simp only [List.length_nil] at hlen
      omega
    | cons b0 rest =>
      have hlen2 : rest.length = ms.length := by simpa using hlen
      constructor
      · show ((substLoop frags (ms.zip rest)).map _ = none) ↔ _
        rw [Option.map_eq_none', substLoop_eq_none]
        constructor
        · rintro ⟨⟨m, b⟩, hmem, hcase⟩
          have hmm : m ∈ ms := (List.of_mem_zip hmem).1
          rcases hcase with h0 | hlt
          · obtain ⟨h1, -⟩ := hbound m hmm
            omega
          · exact ⟨m, hmm, hlt⟩
        · rintro ⟨m, hmem, hlt⟩
          obtain ⟨i, hi, hget⟩ := List.mem_iff_getElem.mp hmem
          have hi2 : i < ms.length := hi
          have hget2 : ms[i] = m := hget
          have hir : i < rest.length := by omega
          have hilen : i < (ms.zip rest).length := by
            rw [List.length_zip]
            omega
          refine ⟨(m, rest[i]), ?_, Or.inr hlt⟩
          have hz : (ms.zip rest)[i] = (m, rest[i]) := by
            rw [List.getElem_zip, hget2]
          rw [← hz]
          exact List.getElem_mem hilen
      · intro hall
        have hzip : ∀ mb ∈ ms.zip rest, 1 ≤ mb.1 ∧ mb.1 ≤ frags.length := by
          intro mb hmb
          have hmm : mb.1 ∈ ms := (List.of_mem_zip hmb).1
          exact ⟨(hbound mb.1 hmm).1, hall mb.1 hmm⟩
        refine ⟨pathJoin (s.take (dirSplitLen s)) (b0 ++ ((ms.zip rest).map
            fun mb => (frags.get? (mb.1 - 1)).getD [] ++ mb.2).flatten), ?_⟩
        show (substLoop frags (ms.zip rest)).map _ = _
        rw [substLoop_eq_some_of hzip]
        rfl

/-- C2 (amended): for a compiled template and fragments covering every
marker, substitute returns the directory joined with the concatenation of
literal block 0 and, per marker, the fragment at marker minus one then
the following block; when that concatenated filename does not begin with
the path separator the join is exactly directory-prefix-then-filename.
(When it does begin with the separator, `PathBuf::join` makes the
absolute filename replace the directory, see the counterexample.) -/
theorem substitute_concatenation :
    ∀ (fuel : Nat) (s : List Char) (max : Nat) (frags : List (List Char))
      (t : DestinationPathTemplate),
      DestinationPathTemplate.compile fuel s max = some t →
      (∀ m ∈ t.markers, m ≤ frags.length) →
      (t.substitute frags
          = some (pathJoin t.directory (substFilenameSpec t frags)) ∧
        ((substFilenameSpec t frags).head? ≠ some '/' →
          t.substitute frags
            = some (t.directory ++ substFilenameSpec t frags))) := by
  intro fuel s max frags t hc hall
  unfold DestinationPathTemplate.compile at hc
  split at hc
  · exact Option.noConfusion hc
  · next ms bs hloop =>
    obtain rfl := (Option.some.inj hc).symm
    obtain ⟨hlen, hbound⟩ := compileLoop_invariant hloop
    cases bs with
    | nil =>
      simp only [List.length_nil] at hlen
      omega
    | cons b0 rest =>
      have hzip : ∀ mb ∈ ms.zip rest, 1 ≤ mb.1 ∧ mb.1 ≤ frags.length := by
        intro mb hmb
        have hmm : mb.1 ∈ ms := (List.of_mem_zip hmb).1
        exact ⟨(hbound mb.1 hmm).1, hall mb.1 hmm⟩
      have hsome : (DestinationPathTemplate.mk (s.take (dirSplitLen s)) ms
            (b0 :: rest)).substitute frags
          = some (pathJoin (s.take (dirSplitLen s))
              (b0 ++ ((ms.zip rest).map
                fun mb => (frags.get? (mb.1 - 1)).getD [] ++ mb.2).flatten)) := by
        show (substLoop frags (ms.zip rest)).map _ = _
        rw [substLoop_eq_some_of hzip]
        rfl
      have hspec : substFilenameSpec (DestinationPathTemplate.mk
            (s.take (dirSplitLen s)) ms (b0 :: rest)) frags
          = b0 ++ ((ms.zip rest).map
              fun mb => (frags.get? (mb.1 - 1)).getD [] ++ mb.2).flatten := rfl
      constructor
      · rw [hsome, hspec]
      · intro hhead
        rw [hspec] at hhead
        rw [hsome, hspec]
        show some (pathJoin _ _) = _
        unfold pathJoin
        rw [if_neg hhead]

/-- C2 counterexample: the claim's prescribed value, directory prefix
followed by the concatenation, is not what the code returns when a
fragment makes the filename absolute: compiling `"dir/#1"` and
substituting the fragment `"/x"` yields `"/x"` (the absolute filename
replaces the directory on join), not `"dir//x"`. -/
theorem substitute_absolute_fragment_counterexample :
    DestinationPathTemplate.compile 8 "dir/#1".data 1
        = some ⟨"dir/".data, [1], ["".data, "".data]⟩ ∧
      (DestinationPathTemplate.mk "dir/".data [1] ["".data, "".data]).substitute
          ["/x".data]
        = some "/x".data ∧
      "/x".data ≠ "dir/".data ++ ("".data ++ "/x".data ++ "".data) := by
  decide

/-! Witnesses: each applies its claim theorem at a concrete input. -/

/-- Witness for C1: substituting the empty fragment list into the
compiled template `"#1"` fails. -/
theorem substitute_out_of_range_witness :
    (DestinationPathTemplate.mk "".data [1] ["".data, "".data]).substitute []
      = none :=
  (substitute_out_of_range 8 "#1".data 1 []
      (DestinationPathTemplate.mk "".data [1] ["".data, "".data])
      (by decide)).1.mpr ⟨1, by decide, by decide⟩

/-- Witness for C2: `compile("dir/file_#2.#1", 2).substitute(["meow",
"oink"])` is `"dir/file_oink.meow"`. -/
theorem substitute_concatenation_witness :
    (DestinationPathTemplate.mk "dir/".data [2, 1]
        ["file_".data, ".".data, "".data]).substitute
        ["meow".data, "oink".data]
      = some "dir/file_oink.meow".data := by
  have h := (substitute_concatenation 64 "dir/file_#2.#1".data 2
      ["meow".data, "oink".data]
      (DestinationPathTemplate.mk "dir/".data [2, 1]
        ["file_".data, ".".data, "".data])
      (by decide) (by decide)).2 (by decide)
  rw [h]
  rfl

/-- Witness for C3: with maximum 12, the text `"23"` resolves to marker 2,
whose digit string is indeed a prefix of the text. -/
theorem compile_marker_resolution_witness :
    (Nat.toDigits 10 2).isPrefixOf "23".data :=
  ((compile_marker_resolution.1 "23".data 12 2).mp (by decide)).2.2.1

/-- Witness for C4: `"ferris.png"` matched against `"*.png"` decomposes
with the single capture `"ferris"`. -/
theorem match_string_decomposition_witness :
    MatchDecompSpec (GlobStarPattern.fromString "*.png".data).literal_blocks
      "ferris.png".data ["ferris".data] :=
  (match_string_decomposition (GlobStarPattern.fromString "*.png".data)
      "ferris.png".data ["ferris".data] (by decide)).1.mp (by decide)

/-- Witness for C5: the parsed source pattern `"path/*.png"` displays as
the original string. -/
theorem pattern_display_round_trip_witness :
    (SourcePathPattern.mk "path/".data
        (GlobStarPattern.fromString "*.png".data)).display
      = "path/*.png".data :=
  pattern_display_round_trip.2 "path/*.png".data
    (SourcePathPattern.mk "path/".data (GlobStarPattern.fromString "*.png".data))
    (by rfl)

/-- Witness for C6: the directory prefix of `"b*d/pattern"` contains the
wildcard sigil, per the failure characterization. -/
theorem from_str_wildcard_in_directory_witness :
    ("b*d/pattern".data.take (dirSplitLen "b*d/pattern".data)).contains '*'
      = true :=
  (from_str_wildcard_in_directory.1 "b*d/pattern".data).mp (by rfl)

/-- Witness for C7: even 100 loop iterations do not complete the
compilation of `"##"`. -/
theorem compile_diverges_on_double_sigil_witness :
    DestinationPathTemplate.compile 100 "##".data 0 = none :=
  compile_diverges_on_double_sigil.2 100

/-- Witness for C8: the compiled directory of `"path#1/#1#2.png"` is the
verbatim prefix up to the last separator, sigil included. -/
theorem compile_directory_verbatim_witness :
    (DestinationPathTemplate.mk "path#1/".data [1, 2]
        ["".data, "".data, ".png".data]).directory
      = "path#1/#1#2.png".data.take (dirSplitLen "path#1/#1#2.png".data) :=
  compile_directory_verbatim.1 64 "path#1/#1#2.png".data 3
    (DestinationPathTemplate.mk "path#1/".data [1, 2]
      ["".data, "".data, ".png".data])
    (by decide)

/-- Witness for C9: a lone non-UTF-8 regular file produces the same
(empty) result as an empty directory. -/
theorem matching_files_skips_non_utf8_witness :
    (SourcePathPattern.mk [] (GlobStarPattern.fromString "*".data)).matching_files
        [⟨none, true⟩]
      = (SourcePathPattern.mk []
          (GlobStarPattern.fromString "*".data)).matching_files [] :=
  matching_files_skips_non_utf8
    (SourcePathPattern.mk [] (GlobStarPattern.fromString "*".data)) [] []

/-- Witness for C10: even the empty pattern yields one literal block, and
the wildcard count is one less than the block count. -/
theorem fromString_blocks_nonempty_witness :
    (GlobStarPattern.fromString "".data).wildcards_number + 1
      = (GlobStarPattern.fromString "".data).literal_blocks.length :=
  (fromString_blocks_nonempty "".data).2.1

end Mmv

/-! The source's unit tests and doc tests, replayed against the
embedding: matching, parsing round trips, compilation of destination
templates (every vector of the Rust test suite), substitution, and the
two probes showing that the scan of a template with two unresolvable
adjacent sigils never finishes. -/
example : (Mmv.GlobStarPattern.fromString "*.png".data).match_string "ferris.png".data
    = some ["ferris".data] := by decide
example : (Mmv.GlobStarPattern.fromString "*.png".data).match_string "ferris.jpg".data
    = none := by decide
example : (Mmv.GlobStarPattern.fromString "rust_*_language.*".data).match_string
    "rust_is_the_best_language.rs".data = some ["is_the_best".data, "rs".data] := by decide
example : (Mmv.GlobStarPattern.fromString "*.rs*.rs".data).match_string
    "file.rs42.rs".data = some ["file".data, "42".data] := by decide
example : (Mmv.GlobStarPattern.fromString "*.rs*.rs".data).match_string
    ".rs.rsjunk".data = none := by decide
example : (Mmv.GlobStarPattern.fromString "pattern".data).match_string
    "pattern".data = some [] := by decide
example : (Mmv.GlobStarPattern.fromString "".data).literal_blocks = [[]] := by decide
example : (Mmv.GlobStarPattern.fromString "**.*".data).literal_blocks
    = [[], [], ['.'], []] := by decide
example : (Mmv.GlobStarPattern.fromString "text*.png".data).display = "text*.png".data := by
  decide
example : Mmv.DestinationPathTemplate.compile 64 "file_#1_name.#2".data 2
    = some ⟨"".data, [1, 2], ["file_".data, "_name.".data, "".data]⟩ := by decide
example : Mmv.DestinationPathTemplate.compile 64 "#1#12#123#1#123".data 12
    = some ⟨"".data, [1, 12, 12, 1, 12],
        ["".data, "".data, "".data, "3".data, "".data, "3".data]⟩ := by decide
example : Mmv.DestinationPathTemplate.compile 64 "path/to/file_##1.#2".data 5
    = some ⟨"path/to/".data, [1, 2], ["file_#".data, ".".data, "".data]⟩ := by decide
example : Mmv.DestinationPathTemplate.compile 64 "path#1/#1#2.png".data 3
    = some ⟨"path#1/".data, [1, 2], ["".data, "".data, ".png".data]⟩ := by decide
example : Mmv.DestinationPathTemplate.compile 64 "/absolute/path/#20.#2".data 20
    = some ⟨"/absolute/path/".data, [20, 2], ["".data, ".".data, "".data]⟩ := by decide
example : Mmv.DestinationPathTemplate.compile 64 "/file_in_root#1.png".data 1
    = some ⟨"/".data, [1], ["file_in_root".data, ".png".data]⟩ := by decide
example : Mmv.DestinationPathTemplate.compile 64 "file#1.#2".data 1
    = some ⟨"".data, [1], ["file".data, ".#2".data]⟩ := by decide
-- nontermination probe: "##" never finishes, at any fuel tried
example : Mmv.DestinationPathTemplate.compile 50 "##".data 0 = none := by decide
example : Mmv.DestinationPathTemplate.compile 200 "##".data 1 = none := by decide
-- substitution checks
example : (Mmv.DestinationPathTemplate.mk "dir/".data [2, 1]
      ["file_".data, ".".data, "".data]).substitute ["meow".data, "oink".data]
    = some "dir/file_oink.meow".data := by decide
example : (Mmv.DestinationPathTemplate.mk "".data [1] ["".data, "".data]).substitute []
    = none := by decide
example : (Mmv.DestinationPathTemplate.mk "dir/".data [2, 1]
      ["file_".data, ".".data, "".data]).substitute ["#2".data, "#1".data]
    = some "dir/file_#1.#2".data := by decide
example : (Mmv.DestinationPathTemplate.mk "".data [1]
      ["file".data, ".#2".data]).substitute ["hello".data, "world".data]
    = some "filehello.#2".data := by decide
